import Mathlib

/-!
Verification of the `atl::forward_list` singly linked list
(src/forward_list.tpp, src/allocator.h).

The development has two layers.

* A functional model: each list operation is translated to a Lean function
  on `List α`, mirroring the loop structure of the corresponding member
  function.  The list `[a, b, c]` models a chain whose head node holds `a`.

* A heap model (further below): nodes live at `Nat` addresses in an explicit
  heap, every link-manipulating member function is translated to a heap
  transformer, and the structural invariant (null-terminated, acyclic chain)
  is proved to be preserved.
-/

namespace AtlForwardList

section FunctionalModel

variable {α : Type}

/-- Model of `forward_list::push_front` (src/forward_list.tpp:273-284):
the new node is linked ahead of `head` and becomes the new head. -/
def push_front (v : α) (l : List α) : List α := v :: l

/-- Model of `forward_list::pop_front` (src/forward_list.tpp:296-302):
if `head` is null nothing happens, otherwise the head node is unlinked. -/
def pop_front : List α → List α
  | [] => []
  | _ :: t => t

/-- Model of the loop shared by the copy constructor
(src/forward_list.tpp:212-216) and the non-self branch of copy assignment
(src/forward_list.tpp:223-231): the source chain is traversed front to back
and every value is re-inserted with `push_front` into an empty list. -/
def copy_from (other : List α) : List α :=
  other.foldl (fun acc v => push_front v acc) []

/-- Model of `forward_list::operator=(const forward_list&)`
(src/forward_list.tpp:223-231).  `same` models the pointer identity test
`this != &other`; when the objects differ the receiver is cleared and
rebuilt by front-insertion from `other`. -/
def copy_assign (same : Bool) (self other : List α) : List α :=
  if same then self else copy_from other

/-- Model of `forward_list::operator=(forward_list&&)`
(src/forward_list.tpp:234-242), returning (receiver, argument) after the
call.  `same` models `this != &other`; when the objects differ the receiver
is cleared, steals `other`'s chain, and `other.head` is nulled. -/
def move_assign (same : Bool) (self other : List α) : List α × List α :=
  if same then (self, other) else (other, [])

/-- Model of `forward_list::reverse`'s pointer-flipping loop
(src/forward_list.tpp:388-398): `prev` accumulates the already-reversed
prefix, `current` walks the remaining chain. -/
def reverse_loop (prev : List α) : List α → List α
  | [] => prev
  | c :: rest => reverse_loop (c :: prev) rest

/-- Model of `forward_list::reverse` (src/forward_list.tpp:388-398). -/
def reverse (l : List α) : List α := reverse_loop [] l

/-- Model of `forward_list::remove` (src/forward_list.tpp:359-370): the
`Node** pos` cursor either unlinks the node `*pos` (when its value equals
`v`) or advances past it. -/
def remove [DecidableEq α] (v : α) : List α → List α
  | [] => []
  | x :: xs => if x = v then remove v xs else x :: remove v xs

/-- Model of `forward_list::remove_if` (src/forward_list.tpp:373-385),
same cursor loop as `remove` with predicate `p`. -/
def remove_if (p : α → Bool) : List α → List α
  | [] => []
  | x :: xs => if p x then remove_if p xs else x :: remove_if p xs

/-- Model of the inner state of `forward_list::unique`
(src/forward_list.tpp:401-412): `c` is the value of the node `current`
points at; a successor equal to `c` is unlinked (and `current` stays),
otherwise `current` advances. -/
def unique_loop [DecidableEq α] (c : α) : List α → List α
  | [] => []
  | y :: ys => if c = y then unique_loop c ys else y :: unique_loop y ys

/-- Model of `forward_list::unique` (src/forward_list.tpp:401-412). -/
def unique [DecidableEq α] : List α → List α
  | [] => []
  | x :: xs => x :: unique_loop x xs

/-- Model of `forward_list::merge` (src/forward_list.tpp:330-346).  The
first argument models the chain hanging off the cursor `*pos`, the second
models `other`'s chain.  When `(*pos)->value < other.head->value` the
cursor advances past the receiver node; otherwise `other`'s head node is
unlinked and spliced in front of `*pos`, and the loop continues at the same
cursor, now looking at the just-inserted node.  When the receiver cursor
reaches null the rest of `other` is attached; the merged chain is returned
(after the call `other.head` is null). -/
def merge (lt : α → α → Bool) : List α → List α → List α
  | [], ys => ys
  | x :: xs, [] => x :: xs
  | x :: xs, y :: ys =>
    if lt x y then x :: merge lt xs (y :: ys)
    else merge lt (y :: x :: xs) ys
termination_by xs ys => 3 * ys.length + xs.length
decreasing_by
  all_goals simp [List.length_cons]
  all_goals omega

/-- Model of a full `merge(other)` call, returning (receiver, argument):
after the loop every node of `other` has been moved into the receiver and
`other.head` is null (src/forward_list.tpp:342-345). -/
def merge_call (lt : α → α → Bool) (self other : List α) : List α × List α :=
  (merge lt self other, [])

/-- The comparison `merge` actually performs
(src/forward_list.tpp:333: `(*pos)->value < other.head->value`),
instantiated at `int`. -/
def int_lt (a b : Int) : Bool := decide (a < b)

/-- The same comparison on origin-tagged values `(value, origin)` — the
tag does not take part in the comparison, it only records which list the
node came from (`false` = receiver, `true` = argument). -/
abbrev key_lt (a b : Int × Bool) : Bool := decide (a.1 < b.1)

/-- Ascending order on the keys of origin-tagged values. -/
abbrev key_le (a b : Int × Bool) : Prop := a.1 ≤ b.1

/-- Ordered pair property: no receiver-origin node stands before an
argument-origin node of equal key. -/
abbrev arg_first (a b : Int × Bool) : Prop :=
  a.2 = false → b.2 = true → a.1 ≠ b.1

/-- Ordered pair property asserted by the claim: no argument-origin node
stands before a receiver-origin node of equal key (i.e. among equal keys
the receiver's node comes first). -/
abbrev recv_first (a b : Int × Bool) : Prop :=
  a.2 = true → b.2 = false → a.1 ≠ b.1

/-- Modelled from the spec: the spec's description of `unique` — "removes
each node whose value equals its immediate predecessor's" — with the
predecessor read off the original chain.  This is the comparison
definition for the refinement claim about `unique`; `p` is the value of
the immediate predecessor in the original list. -/
def unique_spec_loop [DecidableEq α] (p : α) : List α → List α
  | [] => []
  | y :: ys => if y = p then unique_spec_loop y ys else y :: unique_spec_loop y ys

/-- Modelled from the spec: `unique` per the spec's words; the head node
has no predecessor and is always kept. -/
def unique_spec [DecidableEq α] : List α → List α
  | [] => []
  | x :: xs => x :: unique_spec_loop x xs

end FunctionalModel

section PushPopCounting

/-- A single `push_front`/`pop_front` call, for reasoning about operation
sequences (src/forward_list.tpp:273-302). -/
inductive Op : Type
  | push (v : Int) : Op
  | pop : Op

/-- Runs a sequence of `push_front`/`pop_front` calls on a starting list. -/
def run_ops : List Int → List Op → List Int
  | s, [] => s
  | s, Op.push v :: ops => run_ops (push_front v s) ops
  | s, Op.pop :: ops => run_ops (pop_front s) ops

/-- Number of `push_front` calls in a sequence. -/
def num_pushes : List Op → Nat
  | [] => 0
  | Op.push _ :: ops => num_pushes ops + 1
  | Op.pop :: ops => num_pushes ops

/-- Number of effective `pop_front` calls in a sequence run from a given
starting list: a `pop_front` executed on an empty list is not counted,
since src/forward_list.tpp:297 guards the removal with `if (this->head)`. -/
def eff_pops : List Int → List Op → Nat
  | _, [] => 0
  | s, Op.push v :: ops => eff_pops (push_front v s) ops
  | [], Op.pop :: ops => eff_pops ([] : List Int) ops
  | x :: t, Op.pop :: ops => eff_pops (pop_front (x :: t)) ops + 1

end PushPopCounting

section ConstructedTypeModel

/-- The two C++ types involved in node construction: the element type
`Type` and the node type `fwd_list_node<Type>`. -/
inductive CppType : Type
  | elem : CppType
  | node : CppType
deriving DecidableEq

/-- Model of `allocator<T>::construct` (src/allocator.h:51-54): the
placement-new expression is `::new(p) Type(args...)` where `Type` is the
allocator's own class parameter `T`, so the type of the object constructed
is always `T`, independent of the pointer argument. -/
def allocator_construct (T : CppType) : CppType := T

/-- The type constructed by the `push_front` path: `create_node`
(src/forward_list.tpp:170-174) constructs through `value_alloc`, the
allocator rebound to the element type. -/
def push_front_constructed : CppType := allocator_construct CppType.elem

/-- The type constructed by `emplace_front` (src/forward_list.tpp:287-293):
it calls `this->alloc.construct(&new_node->value, args...)` where `alloc`
is the node allocator `allocator<fwd_list_node<Type>>`, so the placement
new targets the node type, not the element type. -/
def emplace_front_constructed : CppType := allocator_construct CppType.node

end ConstructedTypeModel

section HeapModel

/-!
Heap-level model.  Nodes live at `Nat` addresses; the heap maps an address
either to `none` (unallocated / destroyed) or to `some (value, next)`,
mirroring `fwd_list_node` (src/forward_list.tpp:22-50).  A list is a head
pointer `Option Addr` into the heap.  Every link-manipulating member
function of `forward_list` is translated to an executable heap
transformer.  Loops are driven by a fuel parameter; the preservation
theorems require only as much fuel as the loop actually runs for
(the chain length, so exhausting the fuel coincides with the C++ loop
exit).
-/

/-- Node addresses. -/
abbrev Addr := Nat

/-- A heap of `fwd_list_node<int>` values: `none` means the address holds
no live node, `some (v, nxt)` a node with value `v` and successor `nxt`. -/
abbrev Heap := Addr → Option (Int × Option Addr)

/-- Pointwise heap update (a single store to one node). -/
def hupd (h : Heap) (a : Addr) (x : Option (Int × Option Addr)) : Heap :=
  fun b => if b = a then x else h b

/-- `Seg h p q ns` means: starting at pointer `p` and following `next`
links through the live nodes listed (in order) by `ns`, one reaches the
pointer `q`.  A null-terminated chain is a segment ending at `none`. -/
inductive Seg : Heap → Option Addr → Option Addr → List Addr → Prop
  | nil (h : Heap) (p : Option Addr) : Seg h p p []
  | cons {h : Heap} {a : Addr} {v : Int} {nxt q : Option Addr} {ns : List Addr} :
      h a = some (v, nxt) → Seg h nxt q ns → Seg h (some a) q (a :: ns)

/-- The structural invariant of `forward_list` (spec §3): the head is null
or references a chain that terminates in a null link; the address list
`ns` witnesses the traversal (acyclicity follows: see `chain_nodup`). -/
abbrev IsChain (h : Heap) (p : Option Addr) (ns : List Addr) : Prop :=
  Seg h p none ns

/-- Heap model of `push_front` (src/forward_list.tpp:273-284) and of the
linkage performed by `emplace_front` (src/forward_list.tpp:291-292):
a node is created at the fresh address `a` and linked ahead of `hd`. -/
def push_front_p (h : Heap) (hd : Option Addr) (a : Addr) (v : Int) :
    Heap × Option Addr :=
  (hupd h a (some (v, hd)), some a)

/-- Heap model of `pop_front` (src/forward_list.tpp:296-302): if the head
is null nothing happens; otherwise the head node is unlinked and
destroyed. -/
def pop_front_p (h : Heap) (hd : Option Addr) : Heap × Option Addr :=
  match hd with
  | none => (h, none)
  | some a =>
    match h a with
    | none => (h, some a)
    | some (_, nxt) => (hupd h a none, nxt)

/-- Heap model of `forward_list_base::clear` (src/forward_list.tpp:161-167):
pop until the head is null. -/
def clear_p : Nat → Heap → Option Addr → Heap × Option Addr
  | 0, h, hd => (h, hd)
  | _ + 1, h, none => (h, none)
  | fuel + 1, h, some a =>
    let s := pop_front_p h (some a)
    clear_p fuel s.1 s.2

/-- Heap model of the loop of `reverse` (src/forward_list.tpp:388-398):
`prev` is the already-reversed prefix, `cur` the remaining chain; each
step stores `prev` into the current node's `next` field. -/
def reverse_p : Nat → Heap → Option Addr → Option Addr → Heap × Option Addr
  | 0, h, prev, _ => (h, prev)
  | _ + 1, h, prev, none => (h, prev)
  | fuel + 1, h, prev, some c =>
    match h c with
    | none => (h, prev)
    | some (v, nxt) => reverse_p fuel (hupd h c (some (v, prev))) (some c) nxt

/-- Heap model of the `Node** pos` loop of `remove_if`
(src/forward_list.tpp:373-385).  The function receives the chain hanging
off the cursor slot `*pos` and returns (final heap, final content of the
slot): a matching node is destroyed and the slot is retargeted to its
successor; otherwise the cursor moves into the node's `next` field, whose
final content is the recursive result. -/
def remove_if_p (p : Int → Bool) : Nat → Heap → Option Addr → Heap × Option Addr
  | 0, h, cur => (h, cur)
  | _ + 1, h, none => (h, none)
  | fuel + 1, h, some a =>
    match h a with
    | none => (h, some a)
    | some (v, nxt) =>
      if p v then remove_if_p p fuel (hupd h a none) nxt
      else
        let r := remove_if_p p fuel h nxt
        (hupd r.1 a (some (v, r.2)), some a)

/-- Heap model of `remove` (src/forward_list.tpp:359-370): the identical
cursor loop with the match condition `(*pos)->value == value`. -/
def remove_p (val : Int) (fuel : Nat) (h : Heap) (cur : Option Addr) :
    Heap × Option Addr :=
  remove_if_p (fun v => v == val) fuel h cur

/-- Heap model of the loop of `unique` (src/forward_list.tpp:401-412):
`c` is the address `current` points at; an equal-valued successor is
unlinked and destroyed (and `current` stays), otherwise `current`
advances.  The head of the list is never changed. -/
def unique_p : Nat → Heap → Addr → Heap
  | 0, h, _ => h
  | fuel + 1, h, c =>
    match h c with
    | none => h
    | some (_, none) => h
    | some (vc, some b) =>
      match h b with
      | none => h
      | some (vb, bn) =>
        if vc == vb then
          unique_p fuel (hupd (hupd h c (some (vc, bn))) b none) c
        else unique_p fuel h b

/-- Heap model of `unique` including the initial null check implicit in the
loop condition `current && current->next`. -/
def unique_top (fuel : Nat) (h : Heap) (hd : Option Addr) : Heap :=
  match hd with
  | none => h
  | some c => unique_p fuel h c

/-- Heap model of the merge loop (src/forward_list.tpp:330-346), returning
(final heap, final content of the cursor slot `*pos`).  If the receiver
node sorts strictly first the cursor descends into its `next` field;
otherwise `other`'s head node is unlinked, its `next` is pointed at the
current slot content, and the loop resumes at the same slot, which now
holds the just-inserted node.  When the receiver side runs out the rest of
`other` is attached (src/forward_list.tpp:342-345). -/
def merge_p : Nat → Heap → Option Addr → Option Addr → Heap × Option Addr
  | 0, h, cur, _ => (h, cur)
  | _ + 1, h, none, oth => (h, oth)
  | _ + 1, h, some a, none => (h, some a)
  | fuel + 1, h, some a, some b =>
    match h a, h b with
    | some (va, na), some (vb, nb) =>
      if va < vb then
        let r := merge_p fuel h na (some b)
        (hupd r.1 a (some (va, r.2)), some a)
      else
        merge_p fuel (hupd h b (some (vb, some a))) (some b) nb
    | _, _ => (h, some a)

/-- Heap model of `merge(other)` as a whole: the receiver keeps its head
slot (the cursor starts at `&this->head`) and `other.head` is nulled. -/
def merge_call_p (fuel : Nat) (h : Heap) (hd oh : Option Addr) :
    Heap × Option Addr × Option Addr :=
  let r := merge_p fuel h hd oh
  (r.1, r.2, none)

/-- Heap model of the tail-finding loop of `splice_after`
(src/forward_list.tpp:351-352). -/
def last_p : Nat → Heap → Addr → Addr
  | 0, _, b => b
  | fuel + 1, h, b =>
    match h b with
    | some (_, some c) => last_p fuel h c
    | _ => b

/-- Heap model of `splice_after(pos, other)` (src/forward_list.tpp:349-356),
returning (final heap, final `other.head`): if `other` is empty nothing
happens; otherwise `other`'s last node is linked to `pos->next`, `pos` is
linked to `other`'s head, and `other.head` is nulled. -/
def splice_after_p (fuel : Nat) (h : Heap) (pos : Addr) (oth : Option Addr) :
    Heap × Option Addr :=
  match oth with
  | none => (h, none)
  | some b =>
    let l := last_p fuel h b
    match h l, h pos with
    | some (vl, _), some (vp, pn) =>
      (hupd (hupd h l (some (vl, pn))) pos (some (vp, some b)), none)
    | _, _ => (h, some b)

/-- Heap model of the copy loop shared by the copy constructor
(src/forward_list.tpp:212-216) and copy assignment
(src/forward_list.tpp:226-228): walk the source chain front to back and
push each value onto the destination, drawing node storage from the
fresh-address supply `fresh` (the allocator). -/
def copy_loop : Nat → Heap → Option Addr → Option Addr → List Addr →
    Heap × Option Addr
  | 0, h, _, dst, _ => (h, dst)
  | _ + 1, h, none, dst, _ => (h, dst)
  | fuel + 1, h, some c, dst, fresh =>
    match h c, fresh with
    | some (v, nxt), a :: fresh' =>
      copy_loop fuel (hupd h a (some (v, dst))) nxt (some a) fresh'
    | _, _ => (h, dst)

/-- Heap model of the copy constructor (src/forward_list.tpp:212-216):
the copy loop run with an initially null destination head. -/
def copy_ctor_p (fuel : Nat) (h : Heap) (src : Option Addr)
    (fresh : List Addr) : Heap × Option Addr :=
  copy_loop fuel h src none fresh

/-- Heap model of the non-self branch of copy assignment
(src/forward_list.tpp:223-231): clear the receiver, then run the copy
loop over `other`'s chain. -/
def copy_assign_p (fuel : Nat) (h : Heap) (hd oh : Option Addr)
    (fresh : List Addr) : Heap × Option Addr :=
  let c := clear_p fuel h hd
  copy_loop fuel c.1 oh none fresh

/-- Heap model of the non-self branch of move assignment
(src/forward_list.tpp:234-242), returning (heap, receiver head, argument
head): the receiver is cleared, steals `other`'s head, and `other.head`
is nulled. -/
def move_assign_p (fuel : Nat) (h : Heap) (hd oh : Option Addr) :
    Heap × Option Addr × Option Addr :=
  let c := clear_p fuel h hd
  (c.1, oh, none)

/-- Heap model of the move constructor (src/forward_list.tpp:219-220 and
134-137): the new list steals `other`'s head, whose head is nulled. -/
def move_ctor_p (h : Heap) (oh : Option Addr) :
    Heap × Option Addr × Option Addr :=
  (h, oh, none)

/-- Heap model of `swap` (src/forward_list.tpp:324-327): the two head
pointers are exchanged; no node is touched. -/
def swap_p (h : Heap) (hd oh : Option Addr) :
    Heap × Option Addr × Option Addr :=
  (h, oh, hd)

/-- Heap model of the repeated `push_front(value)` loop of `assign` and
`resize` (src/forward_list.tpp:247-249 and 316-319): one push per address
drawn from `fresh`. -/
def push_n : List Addr → Int → Heap → Option Addr → Heap × Option Addr
  | [], _, h, hd => (h, hd)
  | a :: as, v, h, hd => push_n as v (hupd h a (some (v, hd))) (some a)

/-- Heap model of the repeated `pop_front()` loop of `resize`
(src/forward_list.tpp:311-314). -/
def pop_n : Nat → Heap → Option Addr → Heap × Option Addr
  | 0, h, hd => (h, hd)
  | k + 1, h, hd =>
    let s := pop_front_p h hd
    pop_n k s.1 s.2

/-- Heap model of `assign(count, value)` (src/forward_list.tpp:245-250):
clear, then push `count` times. -/
def assign_p (fuel : Nat) (h : Heap) (hd : Option Addr) (count : Nat)
    (v : Int) (fresh : List Addr) : Heap × Option Addr :=
  let c := clear_p fuel h hd
  push_n (fresh.take count) v c.1 c.2

/-- Heap model of the length-measuring walk of `resize`
(src/forward_list.tpp:306-309). -/
def length_p : Nat → Heap → Option Addr → Nat
  | 0, _, _ => 0
  | _ + 1, _, none => 0
  | fuel + 1, h, some a =>
    match h a with
    | none => 0
    | some (_, nxt) => length_p fuel h nxt + 1

/-- Heap model of `resize(count, value)` (src/forward_list.tpp:305-321):
measure the current length, then truncate from the front or pad by
front-insertion. -/
def resize_p (fuel : Nat) (h : Heap) (hd : Option Addr) (count : Nat)
    (v : Int) (fresh : List Addr) : Heap × Option Addr :=
  let len := length_p fuel h hd
  if count < len then pop_n (len - count) h hd
  else push_n (fresh.take (count - len)) v h hd

/-- Statement that every public operation of `forward_list`, run on the
state described by the parameters, leaves every involved list with a head
that is null or references a null-terminated (hence acyclic, see
`chain_nodup`) chain.  The receiver list is `(hd, ns)`, the argument list
of the two-list operations is `(oh, ms)`, `a` is the address returned by
the allocator for a single new node, `fresh` the addresses it returns
during a copy/assign/resize loop, `pos` a valid iterator position inside
the receiver, and `fuel` bounds the loop trip counts. -/
def preserves_invariant (h : Heap) (hd oh : Option Addr) (ns ms : List Addr)
    (a : Addr) (v : Int) (p : Int → Bool) (pos : Addr) (fresh : List Addr)
    (count : Nat) (fuel : Nat) : Prop :=
  IsChain (push_front_p h hd a v).1 (push_front_p h hd a v).2 (a :: ns)
  ∧ IsChain (pop_front_p h hd).1 (pop_front_p h hd).2 ns.tail
  ∧ ((clear_p fuel h hd).2 = none ∧ IsChain (clear_p fuel h hd).1 (clear_p fuel h hd).2 [])
  ∧ IsChain (reverse_p fuel h none hd).1 (reverse_p fuel h none hd).2 ns.reverse
  ∧ (∃ ks, ks ⊆ ns ∧ IsChain (remove_if_p p fuel h hd).1 (remove_if_p p fuel h hd).2 ks)
  ∧ (∃ ks, ks ⊆ ns ∧ IsChain (remove_p v fuel h hd).1 (remove_p v fuel h hd).2 ks)
  ∧ (∃ ks, ks ⊆ ns ∧ IsChain (unique_top fuel h hd) hd ks)
  ∧ (∃ ks, ks ⊆ ns ++ ms ∧
      IsChain (merge_call_p fuel h hd oh).1 (merge_call_p fuel h hd oh).2.1 ks ∧
      IsChain (merge_call_p fuel h hd oh).1 (merge_call_p fuel h hd oh).2.2 [])
  ∧ (∃ ks, IsChain (splice_after_p fuel h pos oh).1 hd ks ∧
      IsChain (splice_after_p fuel h pos oh).1 (splice_after_p fuel h pos oh).2 [])
  ∧ (∃ ks, IsChain (copy_ctor_p fuel h oh fresh).1 (copy_ctor_p fuel h oh fresh).2 ks ∧
      IsChain (copy_ctor_p fuel h oh fresh).1 oh ms)
  ∧ (∃ ks, IsChain (copy_assign_p fuel h hd oh fresh).1 (copy_assign_p fuel h hd oh fresh).2 ks ∧
      IsChain (copy_assign_p fuel h hd oh fresh).1 oh ms)
  ∧ (IsChain (move_assign_p fuel h hd oh).1 (move_assign_p fuel h hd oh).2.1 ms ∧
      IsChain (move_assign_p fuel h hd oh).1 (move_assign_p fuel h hd oh).2.2 [])
  ∧ (IsChain (move_ctor_p h oh).1 (move_ctor_p h oh).2.1 ms ∧
      IsChain (move_ctor_p h oh).1 (move_ctor_p h oh).2.2 [])
  ∧ (IsChain (swap_p h hd oh).1 (swap_p h hd oh).2.1 ms ∧
      IsChain (swap_p h hd oh).1 (swap_p h hd oh).2.2 ns)
  ∧ (∃ ks, IsChain (assign_p fuel h hd count v fresh).1 (assign_p fuel h hd count v fresh).2 ks)
  ∧ (∃ ks, IsChain (resize_p fuel h hd count v fresh).1 (resize_p fuel h hd count v fresh).2 ks)

/-- A concrete two-node heap: a list `[5]` whose node sits at address 0 and
a list `[7]` whose node sits at address 1; all other addresses are free. -/
def ex_heap : Heap := fun n =>
  if n = 0 then some (5, none) else if n = 1 then some (7, none) else none

end HeapModel

section FunctionalProofs

variable {α : Type}

theorem copy_fold_eq (l acc : List α) :
    l.foldl (fun acc v => push_front v acc) acc = l.reverse ++ acc := by
  induction l generalizing acc with
  | nil => simp
  | cons x xs ih => simp [push_front, ih]

theorem copy_from_eq_reverse (l : List α) : copy_from l = l.reverse := by
  simp [copy_from, copy_fold_eq]

/-- C1: copy construction and copy assignment rebuild the list by repeated
front-insertion while walking the source front to back, so the copy holds
the same multiset of values in reversed order; in particular a source
iterating `[a, b, c]` yields a copy iterating `[c, b, a]`. -/
theorem copy_reverses_order (self source : List Int) (a b c : Int) :
    copy_from source = source.reverse
    ∧ (copy_from source).Perm source
    ∧ copy_assign false self source = source.reverse
    ∧ copy_from [a, b, c] = [c, b, a] := by
  refine ⟨copy_from_eq_reverse _, ?_, ?_, ?_⟩
  · rw [copy_from_eq_reverse]; exact List.reverse_perm source
  · simp [copy_assign, copy_from_eq_reverse]
  · simp [copy_from_eq_reverse]

theorem reverse_loop_eq (l prev : List α) :
    reverse_loop prev l = l.reverse ++ prev := by
  induction l generalizing prev with
  | nil => simp [reverse_loop]
  | cons x xs ih => simp [reverse_loop, ih]

theorem reverse_eq_reverse (l : List α) :
    AtlForwardList.reverse l = l.reverse := by
  simp [AtlForwardList.reverse, reverse_loop_eq]

/-- C6: `reverse()` reverses the element order (`[1,2,3]` becomes
`[3,2,1]`), is a no-op on the empty list, and applying it twice restores
the original order. -/
theorem reverse_spec (l : List Int) :
    AtlForwardList.reverse [1, 2, 3] = [3, 2, 1]
    ∧ AtlForwardList.reverse ([] : List Int) = []
    ∧ AtlForwardList.reverse (AtlForwardList.reverse l) = l := by
  refine ⟨?_, ?_, ?_⟩ <;> simp [reverse_eq_reverse]

theorem unique_loop_eq_spec [DecidableEq α] (c : α) (l : List α) :
    unique_loop c l = unique_spec_loop c l := by
  induction l generalizing c with
  | nil => rfl
  | cons y ys ih =>
    by_cases hcy : c = y
    · subst hcy
      simp [unique_loop, unique_spec_loop, ih]
    · have hyc : y ≠ c := Ne.symm hcy
      simp [unique_loop, unique_spec_loop, hcy, hyc, ih]

/-- C5: `unique()` removes exactly the nodes whose value equals their
immediate predecessor's value in the chain (the code always compares
against the surviving predecessor, which for equality runs coincides with
the original predecessor), and on `[1,1,2,2,2,3,1]` it yields
`[1,2,3,1]` — the trailing `1` is not merged with the leading one. -/
theorem unique_adjacent_only (l : List Int) :
    unique l = unique_spec l
    ∧ unique [1, 1, 2, 2, 2, 3, 1] = [1, 2, 3, 1] := by
  constructor
  · cases l <;> simp [unique, unique_spec, unique_loop_eq_spec]
  · rfl

theorem run_ops_length (ops : List Op) : ∀ s : List Int,
    (run_ops s ops).length + eff_pops s ops = s.length + num_pushes ops := by
  induction ops with
  | nil => intro s; simp [run_ops, eff_pops, num_pushes]
  | cons op ops ih =>
    intro s
    cases op with
    | push v =>
      have h := ih (push_front v s)
      simp only [run_ops, eff_pops, num_pushes, push_front] at h ⊢
      simp [push_front] at h
      omega
    | pop =>
      cases s with
      | nil =>
        have h := ih ([] : List Int)
        simp only [run_ops, eff_pops, num_pushes, pop_front] at h ⊢
        omega
      | cons x t =>
        have h := ih (pop_front (x :: t))
        simp only [run_ops, eff_pops, num_pushes, pop_front, List.length_cons] at h ⊢
        omega

/-- C7: for any sequence of `push_front`/`pop_front` calls starting from
the empty list, the final length is the number of pushes minus the number
of effective pops (a pop on an empty list is an uncounted no-op), the
effective pops never exceed the pushes, and `pop_front` on the empty list
leaves it unchanged. -/
theorem push_pop_length (ops : List Op) :
    (run_ops [] ops).length + eff_pops [] ops = num_pushes ops
    ∧ (run_ops [] ops).length = num_pushes ops - eff_pops [] ops
    ∧ eff_pops [] ops ≤ num_pushes ops
    ∧ pop_front ([] : List Int) = [] := by
  have h := run_ops_length ops []
  simp only [List.length_nil, Nat.zero_add] at h
  refine ⟨h, by omega, by omega, rfl⟩

theorem remove_if_eq_filter (p : α → Bool) (l : List α) :
    remove_if p l = l.filter (fun x => !(p x)) := by
  induction l with
  | nil => rfl
  | cons x xs ih => by_cases hx : p x <;> simp [remove_if, List.filter_cons, hx, ih]

theorem remove_eq_filter [DecidableEq α] (v : α) (l : List α) :
    remove v l = l.filter (fun x => decide (x ≠ v)) := by
  induction l with
  | nil => rfl
  | cons x xs ih => by_cases hx : x = v <;> simp [remove, List.filter_cons, hx, ih]

/-- C8: `remove(value)` and `remove_if(pred)` delete exactly the matching
nodes — the survivors are the filtered sequence, in their original
relative order — and the length drops by exactly the number of matches. -/
theorem remove_filters (l : List Int) (v : Int) (p : Int → Bool) :
    remove v l = l.filter (fun x => decide (x ≠ v))
    ∧ remove_if p l = l.filter (fun x => !(p x))
    ∧ (remove v l).length + l.count v = l.length
    ∧ (remove_if p l).length + l.countP p = l.length := by
  refine ⟨remove_eq_filter v l, remove_if_eq_filter p l, ?_, ?_⟩
  · induction l with
    | nil => rfl
    | cons x xs ih =>
      by_cases hx : x = v <;>
        simp [remove, List.count_cons, hx, ih] <;> omega
  · induction l with
    | nil => rfl
    | cons x xs ih =>
      by_cases hx : p x <;>
        simp [remove_if, List.countP_cons, hx, ih] <;> omega

/-- C10: thanks to the `this != &other` guards, assigning a list to
itself — by copy assignment or by move assignment — leaves the element
sequence unchanged; without the guard the clear-then-rebuild path would
rebuild from the already-cleared source, i.e. produce the empty list. -/
theorem self_assign_id (l : List Int) :
    copy_assign true l l = l
    ∧ move_assign true l l = (l, l)
    ∧ copy_from ([] : List Int) = [] := by
  refine ⟨rfl, rfl, rfl⟩

/-- C4: `emplace_front` constructs through the node allocator
`this->alloc`, whose placement-new builds an object of the allocator's own
parameter type `fwd_list_node<Type>`, not of the element type — unlike the
`push_front` path, which constructs through the allocator rebound to the
element type. -/
theorem emplace_front_constructs_node :
    emplace_front_constructed = CppType.node
    ∧ emplace_front_constructed ≠ push_front_constructed := by
  refine ⟨rfl, by decide⟩

end FunctionalProofs

section MergeProofs

variable {α : Type}

theorem merge_perm (lt : α → α → Bool) :
    (xs ys : List α) → (merge lt xs ys).Perm (xs ++ ys)
  | [], ys => by simp [merge]
  | x :: xs, [] => by simp [merge]
  | x :: xs, y :: ys => by
    simp only [merge]
    by_cases hc : lt x y = true
    · simp only [hc, if_true]
      exact (merge_perm lt xs (y :: ys)).cons x
    · simp only [hc, if_false]
      exact (merge_perm lt (y :: x :: xs) ys).trans List.perm_middle.symm
termination_by xs ys => 3 * ys.length + xs.length
decreasing_by
  all_goals simp [List.length_cons]
  all_goals omega

theorem merge_pairwise (lt : α → α → Bool) (r : α → α → Prop)
    (hlt : ∀ a b, lt a b = true → r a b)
    (hnlt : ∀ a b, lt a b = false → r b a)
    (htr : ∀ a b c, r a b → r b c → r a c) :
    (xs ys : List α) → xs.Pairwise r → ys.Pairwise r →
    (merge lt xs ys).Pairwise r
  | [], ys, _, hys => by simpa [merge] using hys
  | x :: xs, [], hxs, _ => by simpa [merge] using hxs
  | x :: xs, y :: ys, hxs, hys => by
    simp only [merge]
    by_cases hc : lt x y = true
    · simp only [hc, if_true]
      rw [List.pairwise_cons]
      constructor
      · intro z hz
        have hz' : z ∈ xs ++ y :: ys := (merge_perm lt xs (y :: ys)).mem_iff.1 hz
        rcases List.mem_append.1 hz' with hzx | hzy
        · exact List.rel_of_pairwise_cons hxs hzx
        · rcases List.mem_cons.1 hzy with rfl | hzy'
          · exact hlt _ _ hc
          · exact htr _ _ _ (hlt _ _ hc) (List.rel_of_pairwise_cons hys hzy')
      · exact merge_pairwise lt r hlt hnlt htr xs (y :: ys)
          (List.pairwise_cons.1 hxs).2 hys
    · simp only [hc, if_false]
      have hfalse : lt x y = false := by
        revert hc; cases lt x y <;> simp
      have hyx : r y x := hnlt _ _ hfalse
      apply merge_pairwise lt r hlt hnlt htr (y :: x :: xs) ys ?_
        (List.pairwise_cons.1 hys).2
      rw [List.pairwise_cons]
      constructor
      · intro z hz
        rcases List.mem_cons.1 hz with rfl | hz'
        · exact hyx
        · exact htr _ _ _ hyx (List.rel_of_pairwise_cons hxs hz')
      · exact hxs
termination_by xs ys => 3 * ys.length + xs.length
decreasing_by
  all_goals simp [List.length_cons]
  all_goals omega

/-- C2: merging two ascending-sorted lists interleaves the argument's
nodes into the receiver so that the result is ascending-sorted and is a
permutation of the two inputs together, and the argument list is left
empty; in particular `[1,3,5].merge([2,3,4])` iterates `[1,2,3,3,4,5]`
with the argument emptied. -/
theorem merge_sorted_spec (xs ys : List Int)
    (hxs : xs.Sorted (· ≤ ·)) (hys : ys.Sorted (· ≤ ·)) :
    (merge_call int_lt xs ys).1.Sorted (· ≤ ·)
    ∧ (merge_call int_lt xs ys).1.Perm (xs ++ ys)
    ∧ (merge_call int_lt xs ys).2 = []
    ∧ merge_call int_lt [1, 3, 5] [2, 3, 4] = ([1, 2, 3, 3, 4, 5], []) := by
  refine ⟨?_, merge_perm int_lt xs ys, rfl, ?_⟩
  · exact merge_pairwise int_lt (· ≤ ·)
      (fun a b h => le_of_lt (by simpa [int_lt] using h))
      (fun a b h => le_of_not_lt (by simpa [int_lt] using h))
      (fun a b c => le_trans) xs ys hxs hys
  · simp [merge_call, merge, int_lt]

/-- Closed instance of `merge_sorted_spec` at the spec's own example. -/
theorem merge_sorted_witness :
    List.Sorted (· ≤ ·) [(1 : Int), 3, 5]
    ∧ List.Sorted (· ≤ ·) [(2 : Int), 3, 4]
    ∧ ((merge_call int_lt [1, 3, 5] [2, 3, 4]).1.Sorted (· ≤ ·)
       ∧ (merge_call int_lt [1, 3, 5] [2, 3, 4]).1.Perm ([1, 3, 5] ++ [2, 3, 4])
       ∧ (merge_call int_lt [1, 3, 5] [2, 3, 4]).2 = []
       ∧ merge_call int_lt [1, 3, 5] [2, 3, 4] = ([1, 2, 3, 3, 4, 5], [])) :=
  ⟨by decide, by decide,
    merge_sorted_spec [1, 3, 5] [2, 3, 4] (by decide) (by decide)⟩

/-- C3, counterexample: merging receiver `[3]` (tag `false`) with argument
`[3]` (tag `true`) puts the argument's node first — `merge` takes the
argument's node whenever the receiver's value is not strictly smaller
(src/forward_list.tpp:333-340) — so the claimed receiver-first tie-break
fails. -/
theorem merge_tie_counterexample :
    List.Sorted key_le [((3 : Int), false)]
    ∧ List.Sorted key_le [((3 : Int), true)]
    ∧ merge key_lt [((3 : Int), false)] [((3 : Int), true)]
        = [(3, true), (3, false)]
    ∧ ¬ (merge key_lt [((3 : Int), false)] [((3 : Int), true)]).Pairwise recv_first := by
  have hme : merge key_lt [((3 : Int), false)] [((3 : Int), true)]
      = [(3, true), (3, false)] := by
    simp [merge, key_lt]
  refine ⟨by decide, by decide, hme, ?_⟩
  rw [hme]
  decide

theorem merge_tag_invariant :
    (xs ys : List (Int × Bool)) → xs.Pairwise key_le → ys.Pairwise key_le →
    (∀ b ∈ ys, b.2 = true) → xs.Pairwise arg_first →
    (merge key_lt xs ys).Pairwise arg_first
  | [], ys, _, _, hytag, _ => by
    simp only [merge]
    refine List.pairwise_of_forall_mem_list ?_
    intro a ha b hb haf _
    rw [hytag a ha] at haf
    exact absurd haf (by simp)
  | x :: xs, [], _, _, _, hinv => by simpa [merge] using hinv
  | x :: xs, y :: ys, hxs, hys, hytag, hinv => by
    simp only [merge]
    by_cases hc : key_lt x y = true
    · simp only [hc, if_true]
      rw [List.pairwise_cons]
      constructor
      · intro z hz hxf hzt
        have hz' : z ∈ xs ++ y :: ys := (merge_perm key_lt xs (y :: ys)).mem_iff.1 hz
        rcases List.mem_append.1 hz' with hzx | hzy
        · exact List.rel_of_pairwise_cons hinv hzx hxf hzt
        · have hxy : x.1 < y.1 := by simpa [key_lt] using hc
          have hyz : y.1 ≤ z.1 := by
            rcases List.mem_cons.1 hzy with rfl | hzy'
            · exact le_refl _
            · exact List.rel_of_pairwise_cons hys hzy'
          omega
      · exact merge_tag_invariant xs (y :: ys)
          (List.pairwise_cons.1 hxs).2 hys hytag (List.pairwise_cons.1 hinv).2
    · simp only [hc, if_false]
      have hyx : y.1 ≤ x.1 := le_of_not_lt (by simpa [key_lt] using hc)
      have hyt : y.2 = true := hytag y (List.mem_cons_self y ys)
      apply merge_tag_invariant (y :: x :: xs) ys ?_
        (List.pairwise_cons.1 hys).2
        (fun b hb => hytag b (List.mem_cons_of_mem y hb)) ?_
      · rw [List.pairwise_cons]
        constructor
        · intro z hz
          rcases List.mem_cons.1 hz with rfl | hz'
          · exact hyx
          · exact le_trans hyx (List.rel_of_pairwise_cons hxs hz')
        · exact hxs
      · rw [List.pairwise_cons]
        constructor
        · intro z hz hyf
          rw [hyt] at hyf
          exact absurd hyf (by simp)
        · exact hinv
termination_by xs ys => 3 * ys.length + xs.length
decreasing_by
  all_goals simp [List.length_cons]
  all_goals omega

/-- C3, amended: in `merge` on two ascending-sorted lists, among equal
keys every node originating from the argument list precedes every node
originating from the receiver — the opposite tie-break of the one
claimed.  Origins are recorded in the Boolean tag (`false` = receiver,
`true` = argument), which the comparison ignores. -/
theorem merge_tie_argument_precedes (xs ys : List (Int × Bool))
    (hxs : xs.Pairwise key_le) (hys : ys.Pairwise key_le)
    (hxtag : ∀ a ∈ xs, a.2 = false) (hytag : ∀ b ∈ ys, b.2 = true) :
    (merge key_lt xs ys).Pairwise arg_first := by
  apply merge_tag_invariant xs ys hxs hys hytag
  refine List.pairwise_of_forall_mem_list ?_
  intro a _ b hb _ hbt
  rw [hxtag b hb] at hbt
  exact absurd hbt (by simp)

/-- Closed instance of `merge_tie_argument_precedes`: receiver
`[(1,recv),(3,recv)]`, argument `[(3,arg)]`. -/
theorem merge_tie_argument_precedes_witness :
    ([((1 : Int), false), (3, false)] : List (Int × Bool)).Pairwise key_le
    ∧ ([((3 : Int), true)] : List (Int × Bool)).Pairwise key_le
    ∧ (merge key_lt [((1 : Int), false), (3, false)] [((3 : Int), true)]).Pairwise arg_first :=
  ⟨by decide, by decide,
    merge_tie_argument_precedes [((1 : Int), false), (3, false)] [((3 : Int), true)]
      (by decide) (by decide) (by decide) (by decide)⟩

end MergeProofs

section HeapProofs

theorem chain_nil {h : Heap} {ns : List Addr} (hc : IsChain h none ns) :
    ns = [] := by
  cases hc
  rfl

theorem chain_det {h : Heap} : ∀ {ns : List Addr} {p : Option Addr} {ms : List Addr},
    IsChain h p ns → IsChain h p ms → ns = ms := by
  intro ns
  induction ns with
  | nil =>
    intro p ms h1 h2
    cases h1
    exact (chain_nil h2).symm
  | cons a ns' ih =>
    intro p ms h1 h2
    cases h1 with
    | cons ha hrest =>
      cases h2 with
      | cons hb hrest2 =>
        rw [ha] at hb
        cases hb
        rw [ih hrest hrest2]

theorem seg_mem_suffix {h : Heap} : ∀ {p q : Option Addr} {ns : List Addr} {a : Addr},
    Seg h p q ns → a ∈ ns →
    ∃ ts, Seg h (some a) q (a :: ts) ∧ (a :: ts).length ≤ ns.length := by
  intro p q ns a hs
  induction hs with
  | nil => intro hmem; cases hmem
  | cons hb hrest ih =>
    intro hmem
    rcases List.mem_cons.1 hmem with rfl | hmem'
    · exact ⟨_, Seg.cons hb hrest, le_refl _⟩
    · rcases ih hmem' with ⟨ts, hch, hlen⟩
      exact ⟨ts, hch, le_trans hlen (by simp)⟩

theorem chain_nodup {h : Heap} : ∀ {ns : List Addr} {p : Option Addr},
    IsChain h p ns → ns.Nodup := by
  intro ns
  induction ns with
  | nil => intro p _; exact List.nodup_nil
  | cons a ns' ih =>
    intro p hc
    cases hc with
    | cons hb hrest =>
      rw [List.nodup_cons]
      refine ⟨?_, ih hrest⟩
      intro hmem
      rcases seg_mem_suffix hrest hmem with ⟨ts, hch, hlen⟩
      have heq := chain_det (Seg.cons hb hrest) hch
      have hlen2 := congrArg List.length heq
      simp only [List.length_cons] at hlen2 hlen
      omega

theorem seg_cons_inv {h : Heap} {p q : Option Addr} {a : Addr} {ns : List Addr}
    (hs : Seg h p q (a :: ns)) :
    p = some a ∧ ∃ v nxt, h a = some (v, nxt) ∧ Seg h nxt q ns := by
  cases hs with
  | cons ha hrest => exact ⟨rfl, _, _, ha, hrest⟩

theorem seg_frame {h : Heap} {x : Option (Int × Option Addr)} {b : Addr} :
    ∀ {ns : List Addr} {p q : Option Addr}, Seg h p q ns → b ∉ ns →
    Seg (hupd h b x) p q ns := by
  intro ns
  induction ns with
  | nil =>
    intro p q hs _
    cases hs
    exact Seg.nil _ _
  | cons a ns' ih =>
    intro p q hs hb
    rcases seg_cons_inv hs with ⟨rfl, v, nxt, ha, hrest⟩
    rw [List.mem_cons] at hb
    push_neg at hb
    have ha' : hupd h b x a = some (v, nxt) := by
      simp only [hupd]
      rw [if_neg (fun hab => hb.1 hab.symm)]
      exact ha
    exact Seg.cons ha' (ih hrest hb.2)

theorem seg_congr {h h' : Heap} : ∀ {ns : List Addr} {p q : Option Addr},
    Seg h p q ns → (∀ b ∈ ns, h' b = h b) → Seg h' p q ns := by
  intro ns
  induction ns with
  | nil =>
    intro p q hs _
    cases hs
    exact Seg.nil _ _
  | cons a ns' ih =>
    intro p q hs hagree
    rcases seg_cons_inv hs with ⟨rfl, v, nxt, ha, hrest⟩
    have ha' : h' a = some (v, nxt) := by
      rw [hagree _ (List.mem_cons_self _ _)]
      exact ha
    exact Seg.cons ha' (ih hrest fun b hb => hagree b (List.mem_cons_of_mem _ hb))

theorem seg_append {h : Heap} : ∀ {p q r : Option Addr} {l1 l2 : List Addr},
    Seg h p q l1 → Seg h q r l2 → Seg h p r (l1 ++ l2) := by
  intro p q r l1 l2 h1
  induction h1 with
  | nil => intro h2; exact h2
  | cons ha _ ih => intro h2; exact Seg.cons ha (ih h2)

theorem seg_split {h : Heap} : ∀ {l1 l2 : List Addr} {p r : Option Addr},
    Seg h p r (l1 ++ l2) → ∃ q, Seg h p q l1 ∧ Seg h q r l2 := by
  intro l1
  induction l1 with
  | nil => intro l2 p r hs; exact ⟨p, Seg.nil _ _, hs⟩
  | cons a l1' ih =>
    intro l2 p r hs
    cases hs with
    | cons ha hrest =>
      rcases ih hrest with ⟨q, s1, s2⟩
      exact ⟨q, Seg.cons ha s1, s2⟩

theorem chain_mem_alloc {h : Heap} : ∀ {p q : Option Addr} {ns : List Addr} {b : Addr},
    Seg h p q ns → b ∈ ns → ∃ x, h b = some x := by
  intro p q ns b hs
  induction hs with
  | nil => intro hmem; cases hmem
  | cons ha _ ih =>
    intro hmem
    rcases List.mem_cons.1 hmem with rfl | hmem'
    · exact ⟨_, ha⟩
    · exact ih hmem'

theorem chain_fresh_not_mem {h : Heap} {p : Option Addr} {ns : List Addr} {b : Addr}
    (hc : IsChain h p ns) (hb : h b = none) : b ∉ ns := by
  intro hmem
  rcases chain_mem_alloc hc hmem with ⟨x, hx⟩
  rw [hb] at hx
  cases hx

theorem push_front_p_chain {h : Heap} {hd : Option Addr} {ns : List Addr}
    {a : Addr} {v : Int} (hc : IsChain h hd ns) (ha : h a = none) :
    IsChain (push_front_p h hd a v).1 (push_front_p h hd a v).2 (a :: ns)
    ∧ ∀ b, b ≠ a → (push_front_p h hd a v).1 b = h b := by
  have hnotin := chain_fresh_not_mem hc ha
  constructor
  · have hl : (push_front_p h hd a v).1 a = some (v, hd) := by
      simp [push_front_p, hupd]
    exact Seg.cons hl (seg_frame hc hnotin)
  · intro b hb
    simp [push_front_p, hupd, hb]

theorem pop_front_p_chain {h : Heap} {hd : Option Addr} {ns : List Addr}
    (hc : IsChain h hd ns) :
    IsChain (pop_front_p h hd).1 (pop_front_p h hd).2 ns.tail
    ∧ ∀ b, b ∉ ns → (pop_front_p h hd).1 b = h b := by
  cases ns with
  | nil =>
    cases hc
    exact ⟨Seg.nil _ _, fun b _ => rfl⟩
  | cons a ns' =>
    have hnd := chain_nodup hc
    rcases seg_cons_inv hc with ⟨rfl, v, nxt, ha, hrest⟩
    rw [List.nodup_cons] at hnd
    constructor
    · simp only [pop_front_p, ha, List.tail_cons]
      exact seg_frame hrest hnd.1
    · intro b hb
      rw [List.mem_cons] at hb
      push_neg at hb
      simp only [pop_front_p, ha, hupd]
      rw [if_neg hb.1]

theorem clear_p_chain : ∀ {fuel : Nat} {h : Heap} {hd : Option Addr} {ns : List Addr},
    IsChain h hd ns → ns.length ≤ fuel →
    (clear_p fuel h hd).2 = none
    ∧ IsChain (clear_p fuel h hd).1 (clear_p fuel h hd).2 []
    ∧ ∀ b, b ∉ ns → (clear_p fuel h hd).1 b = h b := by
  intro fuel
  induction fuel with
  | zero =>
    intro h hd ns hc hlen
    have hns : ns = [] := List.eq_nil_of_length_eq_zero (Nat.le_zero.1 hlen)
    subst hns
    cases hc
    exact ⟨rfl, Seg.nil _ _, fun b _ => rfl⟩
  | succ fuel ih =>
    intro h hd ns hc hlen
    cases ns with
    | nil =>
      cases hc
      exact ⟨rfl, Seg.nil _ _, fun b _ => rfl⟩
    | cons a ns' =>
      have hnd := chain_nodup hc
      rcases seg_cons_inv hc with ⟨rfl, v, nxt, ha, hrest⟩
      rw [List.nodup_cons] at hnd
      have hstep : clear_p (fuel + 1) h (some a) = clear_p fuel (hupd h a none) nxt := by
        simp only [clear_p, pop_front_p, ha]
      have hch' : IsChain (hupd h a none) nxt ns' := seg_frame hrest hnd.1
      have hlen' : ns'.length ≤ fuel := by
        simp only [List.length_cons] at hlen
        omega
      rcases ih hch' hlen' with ⟨h1, h2, h3⟩
      rw [hstep]
      refine ⟨h1, h2, ?_⟩
      intro b hb
      rw [List.mem_cons] at hb
      push_neg at hb
      rw [h3 b hb.2]
      simp only [hupd]
      rw [if_neg hb.1]

theorem push_n_chain {v : Int} : ∀ {as : List Addr} {h : Heap} {hd : Option Addr}
    {ns : List Addr},
    IsChain h hd ns → as.Nodup → (∀ x ∈ as, h x = none) →
    IsChain (push_n as v h hd).1 (push_n as v h hd).2 (as.reverse ++ ns)
    ∧ ∀ b, b ∉ as → (push_n as v h hd).1 b = h b := by
  intro as
  induction as with
  | nil =>
    intro h hd ns hc _ _
    exact ⟨by simpa [push_n] using hc, fun b _ => rfl⟩
  | cons a as' ih =>
    intro h hd ns hc hnd hfr
    rw [List.nodup_cons] at hnd
    have ha : h a = none := hfr a (List.mem_cons_self _ _)
    have hnotin := chain_fresh_not_mem hc ha
    have hl : hupd h a (some (v, hd)) a = some (v, hd) := by
      simp [hupd]
    have hch1 : IsChain (hupd h a (some (v, hd))) (some a) (a :: ns) :=
      Seg.cons hl (seg_frame hc hnotin)
    have hfr' : ∀ x ∈ as', hupd h a (some (v, hd)) x = none := by
      intro x hx
      simp only [hupd]
      rw [if_neg (fun (hxa : x = a) => hnd.1 (hxa ▸ hx))]
      exact hfr x (List.mem_cons_of_mem _ hx)
    rcases ih hch1 hnd.2 hfr' with ⟨hc2, hloc2⟩
    constructor
    · show IsChain (push_n (a :: as') v h hd).1 (push_n (a :: as') v h hd).2 _
      simp only [push_n]
      have hsh : (a :: as').reverse ++ ns = as'.reverse ++ (a :: ns) := by
        simp
      rw [hsh]
      exact hc2
    · intro b hb
      rw [List.mem_cons] at hb
      push_neg at hb
      simp only [push_n]
      rw [hloc2 b hb.2]
      simp only [hupd]
      rw [if_neg hb.1]

theorem pop_n_chain : ∀ {k : Nat} {h : Heap} {hd : Option Addr} {ns : List Addr},
    IsChain h hd ns →
    IsChain (pop_n k h hd).1 (pop_n k h hd).2 (ns.drop k)
    ∧ ∀ b, b ∉ ns → (pop_n k h hd).1 b = h b := by
  intro k
  induction k with
  | zero =>
    intro h hd ns hc
    exact ⟨by simpa [pop_n] using hc, fun b _ => rfl⟩
  | succ k ih =>
    intro h hd ns hc
    rcases pop_front_p_chain hc with ⟨hc1, hloc1⟩
    rcases ih hc1 with ⟨hc2, hloc2⟩
    have hdrop : ns.tail.drop k = ns.drop (k + 1) := by
      rw [← List.drop_one, List.drop_drop, Nat.add_comm]
    constructor
    · show IsChain (pop_n (k + 1) h hd).1 (pop_n (k + 1) h hd).2 _
      simp only [pop_n]
      rw [← hdrop]
      exact hc2
    · intro b hb
      simp only [pop_n]
      rw [hloc2 b (fun hbt => hb (List.mem_of_mem_tail hbt)), hloc1 b hb]

theorem length_p_chain : ∀ {fuel : Nat} {h : Heap} {hd : Option Addr} {ns : List Addr},
    IsChain h hd ns → ns.length ≤ fuel → length_p fuel h hd = ns.length := by
  intro fuel
  induction fuel with
  | zero =>
    intro h hd ns hc hlen
    have hns : ns = [] := List.eq_nil_of_length_eq_zero (Nat.le_zero.1 hlen)
    subst hns
    rfl
  | succ fuel ih =>
    intro h hd ns hc hlen
    cases ns with
    | nil =>
      cases hc
      rfl
    | cons a ns' =>
      rcases seg_cons_inv hc with ⟨rfl, v, nxt, ha, hrest⟩
      have hlen' : ns'.length ≤ fuel := by
        simp only [List.length_cons] at hlen
        omega
      simp only [length_p, ha, List.length_cons]
      rw [ih hrest hlen']

theorem copy_loop_chain : ∀ {fuel : Nat} {h : Heap} {src dst : Option Addr}
    {fresh ms ds : List Addr},
    IsChain h src ms → IsChain h dst ds → fresh.Nodup →
    (∀ x ∈ fresh, h x = none) → ms.length ≤ fuel → ms.length ≤ fresh.length →
    ∃ ks, IsChain (copy_loop fuel h src dst fresh).1 (copy_loop fuel h src dst fresh).2 ks
    ∧ ∀ b, b ∉ fresh → (copy_loop fuel h src dst fresh).1 b = h b := by
  intro fuel
  induction fuel with
  | zero =>
    intro h src dst fresh ms ds hsrc hdst _ _ hlen _
    have hms : ms = [] := List.eq_nil_of_length_eq_zero (Nat.le_zero.1 hlen)
    subst hms
    cases hsrc
    exact ⟨ds, hdst, fun b _ => rfl⟩
  | succ fuel ih =>
    intro h src dst fresh ms ds hsrc hdst hnd hfr hlen hflen
    cases ms with
    | nil =>
      cases hsrc
      exact ⟨ds, hdst, fun b _ => rfl⟩
    | cons c ms' =>
      rcases seg_cons_inv hsrc with ⟨rfl, v, nxt, hcnode, hrest⟩
      cases fresh with
      | nil =>
        simp only [List.length_cons, List.length_nil] at hflen
        omega
      | cons a fresh' =>
        rw [List.nodup_cons] at hnd
        have ha : h a = none := hfr a (List.mem_cons_self _ _)
        have hstep : copy_loop (fuel + 1) h (some c) dst (a :: fresh')
            = copy_loop fuel (hupd h a (some (v, dst))) nxt (some a) fresh' := by
          simp only [copy_loop, hcnode]
        have hch1 : IsChain (hupd h a (some (v, dst))) nxt ms' :=
          seg_frame hrest (chain_fresh_not_mem hrest ha)
        have hl : hupd h a (some (v, dst)) a = some (v, dst) := by
          simp [hupd]
        have hch2 : IsChain (hupd h a (some (v, dst))) (some a) (a :: ds) :=
          Seg.cons hl (seg_frame hdst (chain_fresh_not_mem hdst ha))
        have hfr' : ∀ x ∈ fresh', hupd h a (some (v, dst)) x = none := by
          intro x hx
          simp only [hupd]
          rw [if_neg (fun (hxa : x = a) => hnd.1 (hxa ▸ hx))]
          exact hfr x (List.mem_cons_of_mem _ hx)
        have hlen' : ms'.length ≤ fuel := by
          simp only [List.length_cons] at hlen
          omega
        have hflen' : ms'.length ≤ fresh'.length := by
          simp only [List.length_cons] at hflen
          omega
        rcases ih hch1 hch2 hnd.2 hfr' hlen' hflen' with ⟨ks, hc2, hloc2⟩
        refine ⟨ks, ?_, ?_⟩
        · rw [hstep]
          exact hc2
        · intro b hb
          rw [List.mem_cons] at hb
          push_neg at hb
          rw [hstep, hloc2 b hb.2]
          simp only [hupd]
          rw [if_neg hb.1]

theorem reverse_p_chain : ∀ {cl : List Addr} {fuel : Nat} {h : Heap}
    {prev cur : Option Addr} {pl : List Addr},
    Seg h prev none pl → Seg h cur none cl → (∀ x ∈ pl, x ∉ cl) →
    cl.length ≤ fuel →
    IsChain (reverse_p fuel h prev cur).1 (reverse_p fuel h prev cur).2 (cl.reverse ++ pl)
    ∧ ∀ b, b ∉ cl → (reverse_p fuel h prev cur).1 b = h b := by
  intro cl
  induction cl with
  | nil =>
    intro fuel h prev cur pl hprev hcur _ _
    cases hcur
    cases fuel <;> exact ⟨by simpa using hprev, fun b _ => rfl⟩
  | cons c cl' ih =>
    intro fuel h prev cur pl hprev hcur hdisj hlen
    cases fuel with
    | zero => simp only [List.length_cons] at hlen; omega
    | succ fuel =>
      have hnd := chain_nodup hcur
      rcases seg_cons_inv hcur with ⟨rfl, v, nxt, hcn, hrest⟩
      rw [List.nodup_cons] at hnd
      have hstep : reverse_p (fuel + 1) h prev (some c)
          = reverse_p fuel (hupd h c (some (v, prev))) (some c) nxt := by
        simp only [reverse_p, hcn]
      have hcp : c ∉ pl := fun hcpl => hdisj c hcpl (List.mem_cons_self _ _)
      have hl : hupd h c (some (v, prev)) c = some (v, prev) := by
        simp [hupd]
      have hprev' : Seg (hupd h c (some (v, prev))) (some c) none (c :: pl) :=
        Seg.cons hl (seg_frame hprev hcp)
      have hcur' : Seg (hupd h c (some (v, prev))) nxt none cl' :=
        seg_frame hrest hnd.1
      have hdisj' : ∀ x ∈ c :: pl, x ∉ cl' := by
        intro x hx
        rcases List.mem_cons.1 hx with rfl | hx'
        · exact hnd.1
        · exact fun hxc => hdisj x hx' (List.mem_cons_of_mem _ hxc)
      have hlen' : cl'.length ≤ fuel := by
        simp only [List.length_cons] at hlen
        omega
      rcases ih hprev' hcur' hdisj' hlen' with ⟨hc2, hloc2⟩
      constructor
      · rw [hstep]
        have hsh : (c :: cl').reverse ++ pl = cl'.reverse ++ (c :: pl) := by
          simp
        rw [hsh]
        exact hc2
      · intro b hb
        rw [List.mem_cons] at hb
        push_neg at hb
        rw [hstep, hloc2 b hb.2]
        simp only [hupd]
        rw [if_neg hb.1]

theorem remove_if_p_chain {p : Int → Bool} : ∀ {ns : List Addr} {fuel : Nat}
    {h : Heap} {cur : Option Addr},
    IsChain h cur ns → ns.length ≤ fuel →
    ∃ ks, ks ⊆ ns
    ∧ IsChain (remove_if_p p fuel h cur).1 (remove_if_p p fuel h cur).2 ks
    ∧ ∀ b, b ∉ ns → (remove_if_p p fuel h cur).1 b = h b := by
  intro ns
  induction ns with
  | nil =>
    intro fuel h cur hc _
    cases hc
    cases fuel <;>
      exact ⟨[], List.nil_subset _, Seg.nil _ _, fun b _ => rfl⟩
  | cons a ns' ih =>
    intro fuel h cur hc hlen
    cases fuel with
    | zero => simp only [List.length_cons] at hlen; omega
    | succ fuel =>
      have hnd := chain_nodup hc
      rcases seg_cons_inv hc with ⟨rfl, v, nxt, ha, hrest⟩
      rw [List.nodup_cons] at hnd
      have hlen' : ns'.length ≤ fuel := by
        simp only [List.length_cons] at hlen
        omega
      by_cases hp : p v = true
      · have hstep : remove_if_p p (fuel + 1) h (some a)
            = remove_if_p p fuel (hupd h a none) nxt := by
          simp only [remove_if_p, ha, hp, if_true]
        have hch' : IsChain (hupd h a none) nxt ns' := seg_frame hrest hnd.1
        rcases ih hch' hlen' with ⟨ks, hsub, hchain, hloc⟩
        refine ⟨ks, fun x hx => List.mem_cons_of_mem _ (hsub hx), ?_, ?_⟩
        · rw [hstep]
          exact hchain
        · intro b hb
          rw [List.mem_cons] at hb
          push_neg at hb
          rw [hstep, hloc b hb.2]
          simp only [hupd]
          rw [if_neg hb.1]
      · have hstep : remove_if_p p (fuel + 1) h (some a)
            = (hupd (remove_if_p p fuel h nxt).1 a
                (some (v, (remove_if_p p fuel h nxt).2)), some a) := by
          simp only [remove_if_p, ha]
          rw [if_neg hp]
        rcases ih hrest hlen' with ⟨ks, hsub, hchain, hloc⟩
        have hanks : a ∉ ks := fun hmem => hnd.1 (hsub hmem)
        have hl : (hupd (remove_if_p p fuel h nxt).1 a
            (some (v, (remove_if_p p fuel h nxt).2))) a
            = some (v, (remove_if_p p fuel h nxt).2) := by
          simp [hupd]
        refine ⟨a :: ks, ?_, ?_, ?_⟩
        · intro x hx
          rcases List.mem_cons.1 hx with rfl | hx'
          · exact List.mem_cons_self _ _
          · exact List.mem_cons_of_mem _ (hsub hx')
        · rw [hstep]
          exact Seg.cons hl (seg_frame hchain hanks)
        · intro b hb
          rw [List.mem_cons] at hb
          push_neg at hb
          rw [hstep]
          show hupd (remove_if_p p fuel h nxt).1 a _ b = h b
          simp only [hupd]
          rw [if_neg hb.1]
          exact hloc b hb.2

theorem unique_p_chain : ∀ {ns : List Addr} {fuel : Nat} {h : Heap} {c : Addr},
    IsChain h (some c) (c :: ns) → ns.length ≤ fuel →
    ∃ ks, ks ⊆ ns
    ∧ IsChain (unique_p fuel h c) (some c) (c :: ks)
    ∧ ∀ b, b ∉ c :: ns → unique_p fuel h c b = h b := by
  intro ns
  induction ns with
  | nil =>
    intro fuel h c hc _
    rcases seg_cons_inv hc with ⟨_, vc, nxt, hcn, hrest⟩
    cases hrest
    refine ⟨[], List.nil_subset _, ?_, ?_⟩
    · cases fuel <;> simp only [unique_p, hcn] <;> exact hc
    · intro b _
      cases fuel <;> simp only [unique_p, hcn]
  | cons b rest ih =>
    intro fuel h c hc hlen
    cases fuel with
    | zero => simp only [List.length_cons] at hlen; omega
    | succ fuel =>
      have hnd := chain_nodup hc
      rcases seg_cons_inv hc with ⟨_, vc, nxt, hcn, hrest1⟩
      rcases seg_cons_inv hrest1 with ⟨rfl, vb, bn, hbn, hrest2⟩
      simp only [List.nodup_cons, List.mem_cons] at hnd
      push_neg at hnd
      have hlen' : rest.length ≤ fuel := by
        simp only [List.length_cons] at hlen
        omega
      by_cases hv : (vc == vb) = true
      · have hstep : unique_p (fuel + 1) h c
            = unique_p fuel (hupd (hupd h c (some (vc, bn))) b none) c := by
          simp only [unique_p, hcn, hbn, hv, if_true]
        have hcb : c ≠ b := hnd.1.1
        have hl : (hupd (hupd h c (some (vc, bn))) b none) c = some (vc, bn) := by
          simp only [hupd]
          rw [if_neg hcb]
          simp
        have hch' : IsChain (hupd (hupd h c (some (vc, bn))) b none) (some c)
            (c :: rest) :=
          Seg.cons hl (seg_frame (seg_frame hrest2 hnd.1.2) hnd.2.1)
        rcases ih hch' hlen' with ⟨ks, hsub, hchain, hloc⟩
        refine ⟨ks, fun x hx => List.mem_cons_of_mem _ (hsub hx), ?_, ?_⟩
        · rw [hstep]
          exact hchain
        · intro b' hb'
          simp only [List.mem_cons] at hb'
          push_neg at hb'
          rw [hstep, hloc b' (by simp [List.mem_cons]; tauto)]
          simp only [hupd]
          rw [if_neg hb'.2.1, if_neg hb'.1]
      · have hstep : unique_p (fuel + 1) h c = unique_p fuel h b := by
          simp only [unique_p, hcn, hbn]
          rw [if_neg hv]
        have hch' : IsChain h (some b) (b :: rest) := hrest1
        rcases ih hch' hlen' with ⟨ks, hsub, hchain, hloc⟩
        have hcn' : unique_p fuel h b c = some (vc, some b) := by
          rw [hloc c (by simp [List.mem_cons]; tauto)]
          exact hcn
        refine ⟨b :: ks, ?_, ?_, ?_⟩
        · intro x hx
          rcases List.mem_cons.1 hx with rfl | hx'
          · exact List.mem_cons_self _ _
          · exact List.mem_cons_of_mem _ (hsub hx')
        · rw [hstep]
          exact Seg.cons hcn' hchain
        · intro b' hb'
          simp only [List.mem_cons] at hb'
          push_neg at hb'
          rw [hstep, hloc b' (by simp [List.mem_cons]; tauto)]

theorem merge_p_chain : ∀ {fuel : Nat} {h : Heap} {cur oth : Option Addr}
    {ns ms : List Addr},
    IsChain h cur ns → IsChain h oth ms → (∀ x ∈ ns, x ∉ ms) →
    3 * ms.length + ns.length ≤ fuel →
    ∃ ks, ks ⊆ ns ++ ms
    ∧ IsChain (merge_p fuel h cur oth).1 (merge_p fuel h cur oth).2 ks
    ∧ ∀ b, b ∉ ns ++ ms → (merge_p fuel h cur oth).1 b = h b := by
  intro fuel
  induction fuel with
  | zero =>
    intro h cur oth ns ms hns hms _ hfuel
    have hns0 : ns = [] := by
      cases ns
      · rfl
      · simp only [List.length_cons] at hfuel; omega
    have hms0 : ms = [] := by
      cases ms
      · rfl
      · simp only [List.length_cons] at hfuel; omega
    subst hns0; subst hms0
    cases hns
    cases hms
    exact ⟨[], List.nil_subset _, Seg.nil _ _, fun b _ => rfl⟩
  | succ fuel ih =>
    intro h cur oth ns ms hns hms hdisj hfuel
    cases ns with
    | nil =>
      cases hns
      exact ⟨ms, by simp, hms, fun b _ => rfl⟩
    | cons a ns' =>
      cases ms with
      | nil =>
        cases hms
        rcases seg_cons_inv hns with ⟨rfl, va, na, ha, _⟩
        exact ⟨a :: ns', by simp, hns, fun b _ => rfl⟩
      | cons b ms' =>
        have hnda := chain_nodup hns
        have hndb := chain_nodup hms
        rcases seg_cons_inv hns with ⟨rfl, va, na, ha, hrest_a⟩
        rcases seg_cons_inv hms with ⟨rfl, vb, nb, hb, hrest_b⟩
        rw [List.nodup_cons] at hnda hndb
        by_cases hlt : va < vb
        · have hstep : merge_p (fuel + 1) h (some a) (some b)
              = (hupd (merge_p fuel h na (some b)).1 a
                  (some (va, (merge_p fuel h na (some b)).2)), some a) := by
            simp only [merge_p, ha, hb]
            rw [if_pos hlt]
          have hdisj' : ∀ x ∈ ns', x ∉ b :: ms' :=
            fun x hx => hdisj x (List.mem_cons_of_mem _ hx)
          have hfuel' : 3 * (b :: ms').length + ns'.length ≤ fuel := by
            simp only [List.length_cons] at hfuel ⊢
            omega
          rcases ih hrest_a hms hdisj' hfuel' with ⟨ks, hsub, hchain, hloc⟩
          have hanks : a ∉ ks := by
            intro hmem
            rcases List.mem_append.1 (hsub hmem) with h1 | h1
            · exact hnda.1 h1
            · exact hdisj a (List.mem_cons_self _ _) h1
          have hl : (hupd (merge_p fuel h na (some b)).1 a
              (some (va, (merge_p fuel h na (some b)).2))) a
              = some (va, (merge_p fuel h na (some b)).2) := by
            simp [hupd]
          refine ⟨a :: ks, ?_, ?_, ?_⟩
          · intro x hx
            rcases List.mem_cons.1 hx with rfl | hx'
            · simp
            · have := hsub hx'
              simp only [List.mem_append, List.mem_cons] at this ⊢
              tauto
          · rw [hstep]
            exact Seg.cons hl (seg_frame hchain hanks)
          · intro b' hb'
            simp only [List.mem_append, List.mem_cons] at hb'
            push_neg at hb'
            rw [hstep]
            show hupd (merge_p fuel h na (some b)).1 a _ b' = h b'
            simp only [hupd]
            rw [if_neg hb'.1.1]
            refine hloc b' ?_
            simp only [List.mem_append, List.mem_cons]
            push_neg
            exact ⟨hb'.1.2, hb'.2⟩
        · have hstep : merge_p (fuel + 1) h (some a) (some b)
              = merge_p fuel (hupd h b (some (vb, some a))) (some b) nb := by
            simp only [merge_p, ha, hb]
            rw [if_neg hlt]
          have hbns : b ∉ a :: ns' := by
            intro hmem
            exact hdisj b hmem (List.mem_cons_self _ _)
          have hl : hupd h b (some (vb, some a)) b = some (vb, some a) := by
            simp [hupd]
          have hch1 : Seg (hupd h b (some (vb, some a))) (some b) none
              (b :: a :: ns') :=
            Seg.cons hl (seg_frame hns hbns)
          have hch2 : Seg (hupd h b (some (vb, some a))) nb none ms' :=
            seg_frame hrest_b hndb.1
          have hdisj' : ∀ x ∈ b :: a :: ns', x ∉ ms' := by
            intro x hx
            rcases List.mem_cons.1 hx with rfl | hx'
            · exact hndb.1
            · exact fun hxm => hdisj x hx' (List.mem_cons_of_mem _ hxm)
          have hfuel' : 3 * ms'.length + (b :: a :: ns').length ≤ fuel := by
            simp only [List.length_cons] at hfuel ⊢
            omega
          rcases ih hch1 hch2 hdisj' hfuel' with ⟨ks, hsub, hchain, hloc⟩
          refine ⟨ks, ?_, ?_, ?_⟩
          · intro x hx
            have := hsub hx
            simp only [List.mem_append, List.mem_cons] at this ⊢
            tauto
          · rw [hstep]
            exact hchain
          · intro b' hb'
            simp only [List.mem_append, List.mem_cons] at hb'
            push_neg at hb'
            rw [hstep, hloc b' ?_]
            · simp only [hupd]
              rw [if_neg hb'.2.1]
            · simp only [List.mem_append, List.mem_cons]
              push_neg
              exact ⟨⟨hb'.2.1, hb'.1.1, hb'.1.2⟩, hb'.2.2⟩

theorem last_p_split : ∀ {ms : List Addr} {fuel : Nat} {h : Heap} {b : Addr},
    IsChain h (some b) (b :: ms) → ms.length ≤ fuel →
    ∃ l ms₁ vl, b :: ms = ms₁ ++ [l] ∧ last_p fuel h b = l
    ∧ h l = some (vl, none) ∧ Seg h (some b) (some l) ms₁ := by
  intro ms
  induction ms with
  | nil =>
    intro fuel h b hc _
    rcases seg_cons_inv hc with ⟨_, v, nxt, hbn, hrest⟩
    cases hrest
    refine ⟨b, [], v, by simp, ?_, hbn, Seg.nil _ _⟩
    cases fuel <;> simp only [last_p, hbn]
  | cons c ms' ih =>
    intro fuel h b hc hlen
    cases fuel with
    | zero => simp only [List.length_cons] at hlen; omega
    | succ fuel =>
      rcases seg_cons_inv hc with ⟨_, v, nxt, hbn, hrest⟩
      have hnxt : nxt = some c := (seg_cons_inv hrest).1
      subst hnxt
      have hlen' : ms'.length ≤ fuel := by
        simp only [List.length_cons] at hlen
        omega
      rcases ih hrest hlen' with ⟨l, ms₁, vl, heq, hlast, hl, hseg⟩
      refine ⟨l, b :: ms₁, vl, ?_, ?_, hl, Seg.cons hbn hseg⟩
      · rw [List.cons_append, ← heq]
      · simp only [last_p, hbn]
        exact hlast

theorem splice_after_p_chain {fuel : Nat} {h : Heap} {hd oth : Option Addr}
    {pos : Addr} {ns ms : List Addr}
    (hns : IsChain h hd ns) (hms : IsChain h oth ms)
    (hdisj : ∀ x ∈ ns, x ∉ ms) (hpos : pos ∈ ns) (hfuel : ms.length ≤ fuel) :
    ∃ ks, IsChain (splice_after_p fuel h pos oth).1 hd ks
    ∧ (splice_after_p fuel h pos oth).2 = none
    ∧ IsChain (splice_after_p fuel h pos oth).1 (splice_after_p fuel h pos oth).2 [] := by
  cases ms with
  | nil =>
    cases hms
    exact ⟨ns, hns, rfl, Seg.nil _ _⟩
  | cons b ms'' =>
    rcases seg_cons_inv hms with ⟨rfl, vb, bn, hbn, hrest_b⟩
    have hlenb : ms''.length ≤ fuel := by
      simp only [List.length_cons] at hfuel
      omega
    rcases last_p_split hms hlenb with ⟨l, ms₁, vl, heqm, hlast, hl, hsegbl⟩
    rcases List.append_of_mem hpos with ⟨ns₁, ns₂, rfl⟩
    rcases seg_split hns with ⟨q, hseg1, hseg2⟩
    rcases seg_cons_inv hseg2 with ⟨hq, vp, pn, hpn, hseg3⟩
    subst hq
    have hndn := chain_nodup hns
    have hndm := chain_nodup hms
    rw [List.nodup_append] at hndn
    have hposn1 : pos ∉ ns₁ := fun hmem => hndn.2.2 hmem (List.mem_cons_self _ _)
    have hposn2 : pos ∉ ns₂ := by
      have := hndn.2.1
      rw [List.nodup_cons] at this
      exact this.1
    have hlms : l ∈ b :: ms'' := by
      rw [heqm]
      exact List.mem_append_right _ (List.mem_cons_self _ _)
    have hlns : ∀ x, x ∈ ns₁ ++ pos :: ns₂ → x ≠ l := by
      intro x hx hxl
      exact hdisj x hx (hxl ▸ hlms)
    have hposl : pos ≠ l := hlns pos hpos
    have hlm1 : l ∉ ms₁ := by
      have := hndm
      rw [heqm, List.nodup_append] at this
      intro hmem
      exact this.2.2 hmem (List.mem_cons_self _ _)
    have hposm1 : pos ∉ ms₁ := by
      intro hmem
      refine hdisj pos hpos ?_
      rw [heqm]
      exact List.mem_append_left _ hmem
    have hposm : ∀ x ∈ b :: ms'', x ≠ pos := by
      intro x hx hxp
      exact hdisj pos hpos (hxp ▸ hx)
    -- the updated heap
    have hstep : splice_after_p fuel h pos (some b)
        = (hupd (hupd h l (some (vl, pn))) pos (some (vp, some b)), none) := by
      simp only [splice_after_p, hlast, hl, hpn]
    set h2 : Heap := hupd (hupd h l (some (vl, pn))) pos (some (vp, some b)) with hh2
    have h2pos : h2 pos = some (vp, some b) := by
      simp [hh2, hupd]
    have h2l : h2 l = some (vl, pn) := by
      simp only [hh2, hupd]
      rw [if_neg hposl.symm]
      simp
    have hseg1' : Seg h2 hd (some pos) ns₁ := by
      refine seg_frame (seg_frame hseg1 ?_) hposn1
      intro hmem
      exact hlns l (List.mem_append_left _ hmem) rfl
    have hseg3' : Seg h2 pn none ns₂ := by
      refine seg_frame (seg_frame hseg3 ?_) hposn2
      intro hmem
      exact hlns l (List.mem_append_right _ (List.mem_cons_of_mem _ hmem)) rfl
    have hsegbl' : Seg h2 (some b) (some l) ms₁ := by
      refine seg_frame (seg_frame hsegbl hlm1) hposm1
    have hsegl : Seg h2 (some l) pn [l] := Seg.cons h2l (Seg.nil _ _)
    have hsegbm : Seg h2 (some b) pn (b :: ms'') := by
      rw [heqm]
      exact seg_append hsegbl' hsegl
    have hsegfull : Seg h2 (some b) none ((b :: ms'') ++ ns₂) :=
      seg_append hsegbm hseg3'
    have hsegpos : Seg h2 (some pos) none (pos :: ((b :: ms'') ++ ns₂)) :=
      Seg.cons h2pos hsegfull
    have hsegall : Seg h2 hd none (ns₁ ++ pos :: ((b :: ms'') ++ ns₂)) :=
      seg_append hseg1' hsegpos
    refine ⟨ns₁ ++ pos :: ((b :: ms'') ++ ns₂), ?_, ?_, ?_⟩
    · rw [hstep]
      exact hsegall
    · rw [hstep]
    · rw [hstep]
      exact Seg.nil _ _

/-- C9: every public operation of `forward_list` preserves the structural
invariant: each involved list's head is null or references a cycle-free
chain terminating in a null link.  The receiver is `(hd, ns)`, the
argument list of two-list operations is `(oh, ms)` — exclusive ownership
(spec §3) makes the two chains disjoint — the allocator hands out the
unused address `a` (resp. the unused addresses `fresh`), `pos` is a valid
iterator position in the receiver, and `fuel` bounds every loop's trip
count from above by its actual value. -/
theorem forward_list_invariant
    (h : Heap) (hd oh : Option Addr) (ns ms : List Addr)
    (a pos : Addr) (v : Int) (p : Int → Bool) (fresh : List Addr)
    (count fuel : Nat)
    (hns : IsChain h hd ns) (hms : IsChain h oh ms)
    (hdisj : ∀ x ∈ ns, x ∉ ms)
    (ha : h a = none)
    (hfr : ∀ x ∈ fresh, h x = none) (hfrnd : fresh.Nodup)
    (hfrlen : ms.length ≤ fresh.length)
    (hpos : pos ∈ ns)
    (hfuel : 3 * ms.length + ns.length ≤ fuel) :
    preserves_invariant h hd oh ns ms a v p pos fresh count fuel := by
  have hfuel_ns : ns.length ≤ fuel := by omega
  have hfuel_ms : ms.length ≤ fuel := by omega
  have hfresh_not_ns : ∀ x ∈ fresh, x ∉ ns :=
    fun x hx => chain_fresh_not_mem hns (hfr x hx)
  have hms_not_fresh : ∀ b ∈ ms, b ∉ fresh := by
    intro b hb hbf
    rcases chain_mem_alloc hms hb with ⟨x, hx⟩
    rw [hfr b hbf] at hx
    cases hx
  refine ⟨?_, ?_, ?_, ?_, ?_, ?_, ?_, ?_, ?_, ?_, ?_, ?_, ?_, ?_, ?_, ?_⟩
  · exact (push_front_p_chain hns ha).1
  · exact (pop_front_p_chain hns).1
  · rcases clear_p_chain hns hfuel_ns with ⟨h1, h2, _⟩
    exact ⟨h1, h2⟩
  · have hrev := (reverse_p_chain (Seg.nil h none) hns
      (fun x hx => absurd hx (List.not_mem_nil x)) hfuel_ns).1
    rwa [List.append_nil] at hrev
  · rcases remove_if_p_chain hns hfuel_ns with ⟨ks, hsub, hchain, _⟩
    exact ⟨ks, hsub, hchain⟩
  · rcases remove_if_p_chain (p := fun x => x == v) hns hfuel_ns
      with ⟨ks, hsub, hchain, _⟩
    exact ⟨ks, hsub, hchain⟩
  · cases ns with
    | nil =>
      cases hns
      exact ⟨[], List.nil_subset _, Seg.nil _ _⟩
    | cons c ns'' =>
      have hc := hns
      rcases seg_cons_inv hns with ⟨rfl, vc, nxt, hcn, hrest⟩
      have hlen'' : ns''.length ≤ fuel := by
        simp only [List.length_cons] at hfuel_ns
        omega
      rcases unique_p_chain hc hlen'' with ⟨ks, hsub, hchain, _⟩
      refine ⟨c :: ks, ?_, hchain⟩
      intro x hx
      rcases List.mem_cons.1 hx with rfl | hx'
      · exact List.mem_cons_self _ _
      · exact List.mem_cons_of_mem _ (hsub hx')
  · rcases merge_p_chain hns hms hdisj hfuel with ⟨ks, hsub, hchain, _⟩
    exact ⟨ks, hsub, hchain, Seg.nil _ _⟩
  · rcases splice_after_p_chain hns hms hdisj hpos hfuel_ms with ⟨ks, h1, _, h3⟩
    exact ⟨ks, h1, h3⟩
  · have hds : IsChain h (none : Option Addr) [] := Seg.nil _ _
    rcases copy_loop_chain hms hds hfrnd hfr hfuel_ms hfrlen with ⟨ks, hchain, hloc⟩
    exact ⟨ks, hchain, seg_congr hms (fun b hb => hloc b (hms_not_fresh b hb))⟩
  · rcases clear_p_chain hns hfuel_ns with ⟨_, _, hcloc⟩
    have hms1 : IsChain (clear_p fuel h hd).1 oh ms :=
      seg_congr hms (fun b hb => hcloc b (fun hbn => hdisj b hbn hb))
    have hfr1 : ∀ x ∈ fresh, (clear_p fuel h hd).1 x = none := by
      intro x hx
      rw [hcloc x (hfresh_not_ns x hx)]
      exact hfr x hx
    have hds : IsChain (clear_p fuel h hd).1 (none : Option Addr) [] := Seg.nil _ _
    rcases copy_loop_chain hms1 hds hfrnd hfr1 hfuel_ms hfrlen with ⟨ks, hchain, hloc⟩
    exact ⟨ks, hchain, seg_congr hms1 (fun b hb => hloc b (hms_not_fresh b hb))⟩
  · rcases clear_p_chain hns hfuel_ns with ⟨_, _, hcloc⟩
    refine ⟨seg_congr hms (fun b hb => hcloc b (fun hbn => hdisj b hbn hb)), Seg.nil _ _⟩
  · exact ⟨hms, Seg.nil _ _⟩
  · exact ⟨hms, hns⟩
  · rcases clear_p_chain hns hfuel_ns with ⟨_, h0, hcloc⟩
    have htnd : (fresh.take count).Nodup :=
      List.Nodup.sublist (List.take_sublist _ _) hfrnd
    have htfr : ∀ x ∈ fresh.take count, (clear_p fuel h hd).1 x = none := by
      intro x hx
      have hxf : x ∈ fresh := List.take_subset _ _ hx
      rw [hcloc x (hfresh_not_ns x hxf)]
      exact hfr x hxf
    exact ⟨_, (push_n_chain h0 htnd htfr).1⟩
  · simp only [resize_p]
    by_cases hcl : count < length_p fuel h hd
    · rw [if_pos hcl]
      exact ⟨_, (pop_n_chain hns).1⟩
    · rw [if_neg hcl]
      have htnd : (fresh.take (count - length_p fuel h hd)).Nodup :=
        List.Nodup.sublist (List.take_sublist _ _) hfrnd
      have htfr : ∀ x ∈ fresh.take (count - length_p fuel h hd), h x = none :=
        fun x hx => hfr x (List.take_subset _ _ hx)
      exact ⟨_, (push_n_chain hns htnd htfr).1⟩

/-- Closed instance of `forward_list_invariant`: receiver `[5]` at address
0, argument `[7]` at address 1, allocator addresses 2 and `[3, 4]`. -/
theorem forward_list_invariant_witness :
    IsChain ex_heap (some 0) [0] ∧ IsChain ex_heap (some 1) [1]
    ∧ preserves_invariant ex_heap (some 0) (some 1) [0] [1] 2 5
        (fun x => x == 5) 0 [3, 4] 1 4 := by
  have hch0 : IsChain ex_heap (some 0) [0] :=
    Seg.cons (show ex_heap 0 = some (5, none) from rfl) (Seg.nil _ _)
  have hch1 : IsChain ex_heap (some 1) [1] :=
    Seg.cons (show ex_heap 1 = some (7, none) from rfl) (Seg.nil _ _)
  refine ⟨hch0, hch1, ?_⟩
  exact forward_list_invariant ex_heap (some 0) (some 1) [0] [1] 2 0 5
    (fun x => x == 5) [3, 4] 1 4 hch0 hch1 (by decide) rfl
    (by decide) (by decide) (by decide) (by decide) (by decide)

end HeapProofs

end AtlForwardList
